import Mathlib

/-!
Shallow embedding of the `turmac` Turing-machine emulator (`turmac.py`).

Python lists are modelled as `List`, Python `int` as `Int` (so that
Python's negative-index semantics of `list[i]` can be stated), in-place
mutation as functional update, and exceptions as `Option`/`StepResult`.
The step function `Machine.next` mirrors `Machine.__next__`, with
`StepResult.stop` standing for `StopIteration` and `StepResult.error`
standing for any other exception (`IndexError`, `AttributeError`, ...).
-/

namespace Turmac

/-- Python list indexing: a nonnegative index below the length is used as
is, a negative index `i` with `-len <= i` addresses position `len + i`,
and anything else raises `IndexError` (here: `none`). -/
def pyIndex (n : Nat) (i : Int) : Option Nat :=
  if 0 ≤ i ∧ i < (n : Int) then some i.toNat
  else if -(n : Int) ≤ i ∧ i < 0 then some (i + n).toNat
  else none

/-- Python list read `xs[i]`. -/
def pyListGet {α : Type} (xs : List α) (i : Int) : Option α :=
  (pyIndex xs.length i).bind fun k => xs[k]?

/-- A tape cell; `Square.symbol` is its boolean content. -/
structure Square where
  symbol : Bool
deriving DecidableEq, Repr

/-- Parsing a square, `Square.from_pattern`: accepts exactly the one-character strings
`"o"` (false) and `"x"` (true). -/
def Square.from_pattern (pattern : String) : Option Square :=
  if pattern = "o" then some ⟨false⟩
  else if pattern = "x" then some ⟨true⟩
  else none

/-- A `Tape` wraps the Python list `self.squares`. -/
structure Tape where
  squares : List Square
deriving DecidableEq, Repr

/-- The `Tape()` default argument: a single blank square. -/
def Tape.default : Tape := ⟨[⟨false⟩]⟩

/-- Parsing a tape, `Tape.from_pattern`: one square per character of the pattern. -/
def Tape.from_pattern (pattern : String) : Option Tape :=
  (pattern.data.mapM fun c => Square.from_pattern (String.mk [c])).map Tape.mk

/-- Reading a square, `Tape.__getitem__`: `self.squares[i]` with Python indexing. -/
def Tape.getitem (t : Tape) (i : Int) : Option Square :=
  pyListGet t.squares i

/-- The write `self.tape[i].symbol = b` performed by `Machine.stamp`:
the index is resolved exactly as in `Tape.__getitem__`, then the cell's
symbol is replaced. -/
def Tape.writeSymbol (t : Tape) (i : Int) (b : Bool) : Option Tape :=
  (pyIndex t.squares.length i).map fun k => ⟨t.squares.set k ⟨b⟩⟩

/-- Extending left, `Tape.feed_left`: `self.squares.insert(0, Square())`. -/
def Tape.feed_left (t : Tape) : Tape :=
  ⟨⟨false⟩ :: t.squares⟩

/-- Extending right, `Tape.feed_right`: `self.squares.append(Square())`. -/
def Tape.feed_right (t : Tape) : Tape :=
  ⟨t.squares ++ [⟨false⟩]⟩

/-- A `Behavior`: symbol to stamp, move direction, next state index. -/
structure Behavior where
  symbol : Bool
  goes_right : Bool
  state_i : Int
deriving DecidableEq, Repr

/-- A `State` pairs the behavior for a scanned `False` with the behavior
for a scanned `True`. -/
structure State where
  when_false : Behavior
  when_true : Behavior
deriving DecidableEq, Repr

/-- Selection, `State.__getitem__`: pick the behavior by the scanned symbol. -/
def State.getitem (s : State) (p : Bool) : Behavior :=
  if p = false then s.when_false else s.when_true

/-- A `Program` wraps the Python list `self.states`. -/
structure Program where
  states : List State
deriving DecidableEq, Repr

/-- Lookup, `Program.__getitem__`: raises for `i < 1`, otherwise reads
`self.states[i - 1]` (a nonnegative plain list index). -/
def Program.getitem (p : Program) (i : Int) : Option State :=
  if i < 1 then none
  else pyListGet p.states (i - 1)

/-- A recorded `Move`. The fields are exactly those of the source class;
see `Move.init` for how `Move.__init__` fills them. -/
structure Move where
  symbols : List Bool
  from_square_i : Int
  to_square_i : Int
  from_state_i : Int
  to_state_i : Int
deriving DecidableEq, Repr

/-- The constructor `Move.__init__`. The source assigns
`self.from_state_i = from_square_i`, so the `from_state_i` argument is
never stored; this embedding reproduces that assignment. -/
def Move.init (symbols : List Bool) (from_square_i to_square_i
    from_state_i to_state_i : Int) : Move :=
  { symbols := symbols
    from_square_i := from_square_i
    to_square_i := to_square_i
    from_state_i := from_square_i
    to_state_i := to_state_i }

/-- The `Machine`: tape, program, head position `square_i`, state index
`state_i` (0 means halt), and the scratch `configuration` attribute,
`none` while the attribute is unset. -/
structure Machine where
  tape : Tape
  program : Program
  square_i : Int
  state_i : Int
  configuration : Option Behavior
deriving DecidableEq, Repr

/-- The constructor `Machine.__init__`: head at 0, state index 1, `configuration` unset. -/
def Machine.init (tape : Tape) (program : Program) : Machine :=
  { tape := tape
    program := program
    square_i := 0
    state_i := 1
    configuration := none }

/-- Scanning, `Machine.scan`: read the symbol under the head, look up the behavior
in the program, and store it as the configuration. `none` models the
`IndexError` of either lookup. -/
def Machine.scan (m : Machine) : Option Machine :=
  match m.tape.getitem m.square_i, m.program.getitem m.state_i with
  | some sq, some st => some { m with configuration := some (st.getitem sq.symbol) }
  | _, _ => none

/-- Stamping, `Machine.stamp`: write the configuration's symbol into the current
square. `none` models `AttributeError` (unset configuration) and
`IndexError` (head out of range). -/
def Machine.stamp (m : Machine) : Option Machine :=
  match m.configuration with
  | none => none
  | some conf =>
    match m.tape.writeSymbol m.square_i conf.symbol with
    | none => none
    | some t => some { m with tape := t }

/-- Head movement, `Machine.change_square`: move the head left or right, feeding tape
at the edges exactly as the source does. -/
def Machine.change_square (m : Machine) : Option Machine :=
  match m.configuration with
  | none => none
  | some conf =>
    let goes_right := conf.goes_right
    let goes_left := !goes_right
    let last_i : Int := (m.tape.squares.length : Int) - 1
    if goes_left = true ∧ m.square_i = 0 then
      some { m with tape := m.tape.feed_left }
    else if goes_left = true then
      some { m with square_i := m.square_i - 1 }
    else if goes_right = true ∧ m.square_i = last_i then
      some { m with tape := m.tape.feed_right, square_i := m.square_i + 1 }
    else
      some { m with square_i := m.square_i + 1 }

/-- Transition, `Machine.change_state`: adopt the configuration's state index. -/
def Machine.change_state (m : Machine) : Option Machine :=
  match m.configuration with
  | none => none
  | some conf => some { m with state_i := conf.state_i }

/-- Result of one `__next__` call: `stop` is `StopIteration` (carrying
the machine as it stands when the exception is raised), `error` any
other exception, `move` a completed step with the emitted `Move` and the
machine after the step. -/
inductive StepResult where
  | stop (m : Machine)
  | error
  | move (mv : Move) (m : Machine)
deriving DecidableEq, Repr

/-- One step, `Machine.__next__`: halt check, then scan, stamp, record the
pre-step head and state, move, transition, and emit the `Move` built by
`Move.init` from the post-step tape snapshot. -/
def Machine.next (m : Machine) : StepResult :=
  if m.state_i = 0 then .stop m
  else
    match m.scan with
    | none => .error
    | some m1 =>
      match m1.stamp with
      | none => .error
      | some m2 =>
        match m2.change_square with
        | none => .error
        | some m3 =>
          match m3.change_state with
          | none => .error
          | some m4 =>
            .move (Move.init (m4.tape.squares.map Square.symbol)
              m2.square_i m4.square_i m2.state_i m4.state_i) m4

/-- The behavior `Machine.scan` would look up for the current square and
state: the machine's pending configuration right after a scan. -/
def Machine.currentBehavior (m : Machine) : Option Behavior :=
  match m.tape.getitem m.square_i, m.program.getitem m.state_i with
  | some sq, some st => some (st.getitem sq.symbol)
  | _, _ => none

/-- The projection of a `StepResult` to its emitted `Move`, if any. -/
def StepResult.moveOf : StepResult → Option Move
  | .move mv _ => some mv
  | _ => none

/-- The projection of a `StepResult` to the post-step machine, if the
step completed. -/
def StepResult.machineOf : StepResult → Option Machine
  | .move _ m => some m
  | _ => none

/-- Fuel-bounded iteration of `Machine.__next__`, as `Machine.run` and
`Operator.operate` do: collect the emitted moves until `StopIteration`.
`none` when an error occurs or the fuel runs out before the halt. -/
def Machine.runFuel (fuel : Nat) (m : Machine) : Option (List Move × Machine) :=
  match fuel with
  | 0 => if m.state_i = 0 then some ([], m) else none
  | f + 1 =>
    match m.next with
    | .stop _ => some ([], m)
    | .error => none
    | .move mv m' =>
      match Machine.runFuel f m' with
      | none => none
      | some (ms, mf) => some (mv :: ms, mf)

/-- Fuel-bounded count of the steps a machine executes before the state
index is first 0 (the halt observed by `__next__`). -/
def Machine.stepsToHalt (fuel : Nat) (m : Machine) : Option Nat :=
  match fuel with
  | 0 => if m.state_i = 0 then some 0 else none
  | f + 1 =>
    match m.next with
    | .stop _ => some 0
    | .error => none
    | .move _ m' => (Machine.stepsToHalt f m').map (· + 1)

/-- Rewinding, `Machine.rewind`: head to 0, state to 1, configuration attribute
deleted; the tape and program are untouched. -/
def Machine.rewind (m : Machine) : Machine :=
  { m with square_i := 0, state_i := 1, configuration := none }

/-! ### Concrete machines used to exercise the step function -/

/-- A one-cell blank tape with the one-state program `["oR0,oR0"]`:
both behaviors stamp a blank, move right, and halt. -/
def exM : Machine :=
  Machine.init (Tape.mk [⟨false⟩])
    (Program.mk [State.mk (Behavior.mk false true 0) (Behavior.mk false true 0)])

/-- The move `exM` emits on its first (and only) step. -/
def exMove : Move :=
  { symbols := [false, false], from_square_i := 0, to_square_i := 1
    from_state_i := 0, to_state_i := 0 }

/-- The machine state after `exM`'s first step: tape grown to two blanks
by the right-edge extension, head at 1, halted. -/
def exAfter : Machine :=
  { tape := Tape.mk [⟨false⟩, ⟨false⟩]
    program := Program.mk [State.mk (Behavior.mk false true 0) (Behavior.mk false true 0)]
    square_i := 1
    state_i := 0
    configuration := some (Behavior.mk false true 0) }

/-- A one-cell blank tape with the one-state program `["oL0,oL0"]`:
both state-1 behaviors move left, so the first step hits the left edge. -/
def c4machine : Machine :=
  Machine.init (Tape.mk [⟨false⟩])
    (Program.mk [State.mk (Behavior.mk false false 0) (Behavior.mk false false 0)])

/-- The move `c4machine` emits on its first step. -/
def c4move : Move :=
  { symbols := [false, false], from_square_i := 0, to_square_i := 0
    from_state_i := 0, to_state_i := 0 }

/-- The machine state after `c4machine`'s first step: tape grown to two
blanks by the left-edge extension, head still at 0, halted. -/
def c4after : Machine :=
  { tape := Tape.mk [⟨false⟩, ⟨false⟩]
    program := Program.mk [State.mk (Behavior.mk false false 0) (Behavior.mk false false 0)]
    square_i := 0
    state_i := 0
    configuration := some (Behavior.mk false false 0) }

/-! ### Basic facts about the embedding -/

theorem pyIndex_isSome (n : Nat) (i : Int) :
    (pyIndex n i).isSome ↔ -(n : Int) ≤ i ∧ i < (n : Int) := by
  unfold pyIndex
  split
  · next h1 =>
    simp only [Option.isSome_some, true_iff]
    omega
  · next h1 =>
    split
    · next h2 =>
      simp only [Option.isSome_some, true_iff]
      omega
    · next h2 =>
      have h3 : ¬(-(n : Int) ≤ i ∧ i < (n : Int)) := by omega
      simp [h3]

theorem pyIndex_some_bounds {n : Nat} {i : Int} {k : Nat}
    (h : pyIndex n i = some k) : -(n : Int) ≤ i ∧ i < (n : Int) ∧ k < n := by
  unfold pyIndex at h
  split at h
  · injection h with hk
    omega
  · split at h
    · injection h with hk
      omega
    · exact Option.noConfusion h

theorem pyListGet_isSome {α : Type} (xs : List α) (i : Int) :
    (pyListGet xs i).isSome ↔ -(xs.length : Int) ≤ i ∧ i < (xs.length : Int) := by
  rw [← pyIndex_isSome xs.length i]
  unfold pyListGet
  cases h : pyIndex xs.length i with
  | none => simp
  | some k =>
    have hk := (pyIndex_some_bounds h).2.2
    simp [List.getElem?_eq_getElem hk]

theorem writeSymbol_isSome (t : Tape) (i : Int) (b : Bool) :
    (t.writeSymbol i b).isSome ↔
      -(t.squares.length : Int) ≤ i ∧ i < (t.squares.length : Int) := by
  rw [← pyIndex_isSome t.squares.length i]
  unfold Tape.writeSymbol
  cases h : pyIndex t.squares.length i <;> simp

theorem writeSymbol_length {t t' : Tape} {i : Int} {b : Bool}
    (h : t.writeSymbol i b = some t') : t'.squares.length = t.squares.length := by
  unfold Tape.writeSymbol at h
  cases hp : pyIndex t.squares.length i with
  | none => rw [hp] at h; exact Option.noConfusion h
  | some k =>
    rw [hp] at h
    injection h with h
    rw [← h]
    simp

theorem feed_left_length (t : Tape) :
    t.feed_left.squares.length = t.squares.length + 1 := by
  simp [Tape.feed_left]

theorem feed_right_length (t : Tape) :
    t.feed_right.squares.length = t.squares.length + 1 := by
  simp [Tape.feed_right]

theorem scan_eq_some {m m1 : Machine} (h : m.scan = some m1) :
    ∃ sq st, m.tape.getitem m.square_i = some sq ∧
      m.program.getitem m.state_i = some st ∧
      m1 = { m with configuration := some (st.getitem sq.symbol) } := by
  unfold Machine.scan at h
  split at h
  · next sq st hg hp =>
    exact ⟨sq, st, hg, hp, (Option.some.inj h).symm⟩
  · exact Option.noConfusion h

theorem stamp_eq_some {m m2 : Machine} (h : m.stamp = some m2) :
    ∃ conf t, m.configuration = some conf ∧
      m.tape.writeSymbol m.square_i conf.symbol = some t ∧
      t.squares.length = m.tape.squares.length ∧
      m2 = { m with tape := t } := by
  unfold Machine.stamp at h
  split at h
  · exact Option.noConfusion h
  next conf hc =>
  split at h
  · exact Option.noConfusion h
  next t hw =>
  exact ⟨conf, t, hc, hw, writeSymbol_length hw, (Option.some.inj h).symm⟩

theorem change_square_eq_some {m m3 : Machine} {conf : Behavior}
    (hc : m.configuration = some conf) (h : m.change_square = some m3) :
    (conf.goes_right = false ∧ m.square_i = 0 ∧
       m3 = { m with tape := m.tape.feed_left }) ∨
    (conf.goes_right = false ∧ m.square_i ≠ 0 ∧
       m3 = { m with square_i := m.square_i - 1 }) ∨
    (conf.goes_right = true ∧ m.square_i = (m.tape.squares.length : Int) - 1 ∧
       m3 = { m with tape := m.tape.feed_right, square_i := m.square_i + 1 }) ∨
    (conf.goes_right = true ∧ m.square_i ≠ (m.tape.squares.length : Int) - 1 ∧
       m3 = { m with square_i := m.square_i + 1 }) := by
  unfold Machine.change_square at h
  split at h
  · exact Option.noConfusion h
  next conf' hc' =>
  rw [hc] at hc'
  obtain rfl : conf = conf' := Option.some.inj hc'
  dsimp only at h
  split at h
  · next hcond =>
    left
    have hr : conf.goes_right = false := by simpa using hcond.1
    exact ⟨hr, hcond.2, (Option.some.inj h).symm⟩
  next hcond1 =>
  split at h
  · next hcond2 =>
    right; left
    have hr : conf.goes_right = false := by simpa using hcond2
    refine ⟨hr, ?_, (Option.some.inj h).symm⟩
    intro h0
    exact hcond1 ⟨hcond2, h0⟩
  next hcond2 =>
  have hr : conf.goes_right = true := by simpa using hcond2
  split at h
  · next hcond3 =>
    right; right; left
    exact ⟨hr, hcond3.2, (Option.some.inj h).symm⟩
  · next hcond3 =>
    right; right; right
    refine ⟨hr, ?_, (Option.some.inj h).symm⟩
    intro hlast
    exact hcond3 ⟨hr, hlast⟩

theorem change_state_eq_some {m m4 : Machine} (h : m.change_state = some m4) :
    ∃ conf, m.configuration = some conf ∧ m4 = { m with state_i := conf.state_i } := by
  unfold Machine.change_state at h
  split at h
  · exact Option.noConfusion h
  next conf hc =>
  exact ⟨conf, hc, (Option.some.inj h).symm⟩

theorem next_eq_stop {m m' : Machine} (h : m.next = .stop m') :
    m.state_i = 0 ∧ m' = m := by
  unfold Machine.next at h
  split at h
  · next h0 => exact ⟨h0, (StepResult.stop.inj h).symm⟩
  · split at h
    · exact StepResult.noConfusion h
    · split at h
      · exact StepResult.noConfusion h
      · split at h
        · exact StepResult.noConfusion h
        · split at h
          · exact StepResult.noConfusion h
          · exact StepResult.noConfusion h

theorem next_of_halted {m : Machine} (h : m.state_i = 0) : m.next = .stop m := by
  unfold Machine.next
  rw [if_pos h]

/-- Full characterization of a completed step: the looked-up behavior,
the pre-step head bounds, the `Move` fields, and one case per branch of
`Machine.change_square`. -/
theorem next_move_spec {m : Machine} {mv : Move} {m' : Machine}
    (h : m.next = .move mv m') :
    ∃ conf, m.currentBehavior = some conf ∧
      m.state_i ≠ 0 ∧
      -(m.tape.squares.length : Int) ≤ m.square_i ∧
      m.square_i < (m.tape.squares.length : Int) ∧
      mv.from_square_i = m.square_i ∧
      mv.from_state_i = m.square_i ∧
      mv.to_square_i = m'.square_i ∧
      mv.to_state_i = m'.state_i ∧
      m'.state_i = conf.state_i ∧
      ((conf.goes_right = false ∧ m.square_i = 0 ∧ m'.square_i = 0 ∧
          m'.tape.squares.length = m.tape.squares.length + 1 ∧
          m'.tape.squares.head? = some ⟨false⟩) ∨
       (conf.goes_right = false ∧ m.square_i ≠ 0 ∧ m'.square_i = m.square_i - 1 ∧
          m'.tape.squares.length = m.tape.squares.length) ∨
       (conf.goes_right = true ∧ m.square_i = (m.tape.squares.length : Int) - 1 ∧
          m'.square_i = m.square_i + 1 ∧
          m'.tape.squares.length = m.tape.squares.length + 1) ∨
       (conf.goes_right = true ∧ m.square_i ≠ (m.tape.squares.length : Int) - 1 ∧
          m'.square_i = m.square_i + 1 ∧
          m'.tape.squares.length = m.tape.squares.length)) := by
  unfold Machine.next at h
  split at h
  · exact StepResult.noConfusion h
  next h0 =>
  split at h
  · exact StepResult.noConfusion h
  next m1 hscan =>
  split at h
  · exact StepResult.noConfusion h
  next m2 hst =>
  split at h
  · exact StepResult.noConfusion h
  next m3 hcs =>
  split at h
  · exact StepResult.noConfusion h
  next m4 hcst =>
  injection h with hmv hm'
  subst hmv
  subst hm'
  obtain ⟨sq, st, hg, hp, hm1⟩ := scan_eq_some hscan
  subst hm1
  have hb := (pyListGet_isSome m.tape.squares m.square_i).mp
    (by unfold Tape.getitem at hg; simp [hg])
  have hcb : m.currentBehavior = some (st.getitem sq.symbol) := by
    unfold Machine.currentBehavior
    rw [hg, hp]
  obtain ⟨conf1, t, hc1, hw, hlen0, hm2⟩ := stamp_eq_some hst
  obtain rfl : st.getitem sq.symbol = conf1 := Option.some.inj hc1
  subst hm2
  have hlen : t.squares.length = m.tape.squares.length := hlen0
  rcases change_square_eq_some rfl hcs with
    ⟨hr, h0sq, rfl⟩ | ⟨hr, h0sq, rfl⟩ | ⟨hr, hlast, rfl⟩ | ⟨hr, hlast, rfl⟩
  · obtain ⟨conf2, hc2, rfl⟩ := change_state_eq_some hcst
    obtain rfl : st.getitem sq.symbol = conf2 := Option.some.inj hc2
    have h0sq' : m.square_i = 0 := h0sq
    exact ⟨st.getitem sq.symbol, hcb, h0, hb.1, hb.2, rfl, rfl, rfl, rfl, rfl,
      Or.inl ⟨hr, h0sq', h0sq', by simp [Tape.feed_left, hlen], by simp [Tape.feed_left]⟩⟩
  · obtain ⟨conf2, hc2, rfl⟩ := change_state_eq_some hcst
    obtain rfl : st.getitem sq.symbol = conf2 := Option.some.inj hc2
    have h0sq' : m.square_i ≠ 0 := h0sq
    exact ⟨st.getitem sq.symbol, hcb, h0, hb.1, hb.2, rfl, rfl, rfl, rfl, rfl,
      Or.inr (Or.inl ⟨hr, h0sq', rfl, hlen⟩)⟩
  · obtain ⟨conf2, hc2, rfl⟩ := change_state_eq_some hcst
    obtain rfl : st.getitem sq.symbol = conf2 := Option.some.inj hc2
    have hlast' : m.square_i = (t.squares.length : Int) - 1 := hlast
    exact ⟨st.getitem sq.symbol, hcb, h0, hb.1, hb.2, rfl, rfl, rfl, rfl, rfl,
      Or.inr (Or.inr (Or.inl ⟨hr, by omega, rfl, by simp [Tape.feed_right, hlen]⟩))⟩
  · obtain ⟨conf2, hc2, rfl⟩ := change_state_eq_some hcst
    obtain rfl : st.getitem sq.symbol = conf2 := Option.some.inj hc2
    have hlast' : m.square_i ≠ (t.squares.length : Int) - 1 := hlast
    exact ⟨st.getitem sq.symbol, hcb, h0, hb.1, hb.2, rfl, rfl, rfl, rfl, rfl,
      Or.inr (Or.inr (Or.inr ⟨hr, by omega, rfl, hlen⟩))⟩

theorem runFuel_halted {fuel : Nat} {m : Machine} (h : m.state_i = 0) :
    Machine.runFuel fuel m = some ([], m) := by
  cases fuel with
  | zero =>
    unfold Machine.runFuel
    rw [if_pos h]
  | succ f =>
    unfold Machine.runFuel
    rw [next_of_halted h]

theorem stepsToHalt_halted {fuel : Nat} {m : Machine} (h : m.state_i = 0) :
    Machine.stepsToHalt fuel m = some 0 := by
  cases fuel with
  | zero =>
    unfold Machine.stepsToHalt
    rw [if_pos h]
  | succ f =>
    unfold Machine.stepsToHalt
    rw [next_of_halted h]

theorem getLast?_cons_of_getLast? {α : Type} {l : List α} {a b : α}
    (h : l.getLast? = some b) : (a :: l).getLast? = some b := by
  cases l with
  | nil => simp at h
  | cons c t =>
    rw [List.getLast?_cons_cons]
    exact h

/-! ### The claims -/

/-- C1: the claim says every emitted `Move` records the pre-step state
index in `from_state_i`. The code instead stores the pre-step head
position there (`Move.__init__` assigns `from_state_i = from_square_i`):
on `exM`, whose step begins in state 1 with the head at square 0, the
emitted move's `from_state_i` is 0, the head position, not 1. -/
theorem c1_from_state_i_records_head :
    exM.state_i = 1 ∧ exM.square_i = 0 ∧
    (exM.next.moveOf).map Move.from_state_i = some 0 := by
  refine ⟨rfl, rfl, ?_⟩
  decide

/-- C2 counterexample: the claim says every position outside `0..len-1`,
in particular every negative position, fails; but on a one-cell tape the
negative position -1 is read and written successfully (Python indexes
from the end). -/
theorem c2_negative_index_counterexample :
    Tape.getitem (Tape.mk [⟨false⟩]) (-1) = some ⟨false⟩ ∧
    Tape.writeSymbol (Tape.mk [⟨false⟩]) (-1) true = some (Tape.mk [⟨true⟩]) := by
  constructor
  · decide
  · decide

/-- C2 (amended): reading a `Symbol` from the `Tape` at integer position
`i` succeeds exactly when `-len <= i < len` — so positions `>= len` and
`< -len` fail with the out-of-range condition, but negative positions
down to `-len` succeed, addressing cells from the right end — and the
symbol write performed by `Machine.stamp` has the same range contract. -/
theorem c2_read_write_range (t : Tape) (i : Int) (b : Bool) :
    ((t.getitem i).isSome ↔
      -(t.squares.length : Int) ≤ i ∧ i < (t.squares.length : Int)) ∧
    ((t.writeSymbol i b).isSome ↔
      -(t.squares.length : Int) ≤ i ∧ i < (t.squares.length : Int)) := by
  constructor
  · exact pyListGet_isSome t.squares i
  · exact writeSymbol_isSome t i b

/-- C3 counterexample: the claim says every constructed `Tape` has
length at least 1, but `Tape.from_pattern` applied to the empty pattern
constructs a tape of length 0. -/
theorem c3_empty_tape_counterexample :
    Tape.from_pattern ("") = some (Tape.mk []) ∧ (Tape.mk []).squares.length = 0 := by
  constructor
  · rfl
  · rfl

/-- C3 (amended): the default-constructed `Tape` is a single blank cell
(length 1), and the tape operations never shrink a tape — `feed_left`
and `feed_right` grow it by one cell and the symbol write preserves the
length — so a tape of length at least 1 stays so; but the invariant is
not enforced at construction: a tape built from an empty pattern (or an
empty square list) has length 0. -/
theorem c3_default_and_growth :
    Tape.default.squares.length = 1 ∧
    (∀ t : Tape, t.feed_left.squares.length = t.squares.length + 1) ∧
    (∀ t : Tape, t.feed_right.squares.length = t.squares.length + 1) ∧
    (∀ (t : Tape) (i : Int) (b : Bool),
      ((t.writeSymbol i b).getD t).squares.length = t.squares.length) := by
  refine ⟨rfl, feed_left_length, feed_right_length, ?_⟩
  intro t i b
  cases hw : t.writeSymbol i b with
  | none => simp
  | some t' => simp [writeSymbol_length hw]

/-- C4: a step whose looked-up behavior moves left while the head is at
position 0 extends the tape by one blank cell on the left and leaves the
head index at 0; and on the boundary machine `c4machine` (single-cell
blank tape, both state-1 behaviors moving left) this happens on the very
first step without error. -/
theorem c4_left_edge_extension :
    (∀ (m : Machine) (mv : Move) (m' : Machine) (conf : Behavior),
      m.next = .move mv m' → m.currentBehavior = some conf →
      conf.goes_right = false → m.square_i = 0 →
      m'.square_i = 0 ∧ m'.tape.squares.length = m.tape.squares.length + 1 ∧
        m'.tape.squares.head? = some ⟨false⟩) ∧
    c4machine.next = .move c4move c4after ∧
    c4after.square_i = 0 ∧ c4after.tape.squares.length = 2 := by
  refine ⟨?_, by decide, rfl, rfl⟩
  intro m mv m' conf hn hcb hr h0
  obtain ⟨conf', hcb', _, _, _, _, _, _, _, _, hcase⟩ := next_move_spec hn
  obtain rfl : conf = conf' := Option.some.inj (hcb.symm.trans hcb')
  rcases hcase with ⟨_, _, hq, hl, hh⟩ | ⟨_, h0', _, _⟩ | ⟨hr', _, _, _⟩ | ⟨hr', _, _, _⟩
  · exact ⟨hq, hl, hh⟩
  · exact absurd h0 h0'
  · exact absurd hr' (by simp [hr])
  · exact absurd hr' (by simp [hr])

theorem c4_left_edge_extension_witness :
    c4after.square_i = 0 ∧
    c4after.tape.squares.length = c4machine.tape.squares.length + 1 ∧
    c4after.tape.squares.head? = some ⟨false⟩ :=
  c4_left_edge_extension.1 c4machine c4move c4after (Behavior.mk false false 0)
    (by decide) (by decide) rfl rfl

/-- C5: the head position is a valid tape index throughout a run: a
freshly constructed machine on a non-empty tape has its head at the
valid index 0, and any completed step starting from a nonnegative head
position leaves the head at a valid index of the (possibly grown)
tape. -/
theorem c5_head_always_valid :
    (∀ (t : Tape) (p : Program), 0 < t.squares.length →
      (Machine.init t p).square_i = 0 ∧
      0 ≤ (Machine.init t p).square_i ∧
      (Machine.init t p).square_i < (t.squares.length : Int)) ∧
    (∀ (m : Machine) (mv : Move) (m' : Machine), 0 ≤ m.square_i →
      m.next = .move mv m' →
      0 ≤ m'.square_i ∧ m'.square_i < (m'.tape.squares.length : Int)) := by
  constructor
  · intro t p ht
    refine ⟨rfl, le_refl 0, ?_⟩
    show (0 : Int) < (t.squares.length : Int)
    exact_mod_cast ht
  · intro m mv m' h0 hn
    obtain ⟨conf, _, _, hlb, hub, _, _, _, _, _, hcase⟩ := next_move_spec hn
    rcases hcase with ⟨_, hsq, hq, hl, _⟩ | ⟨_, hsq, hq, hl⟩ | ⟨_, hsq, hq, hl⟩ |
      ⟨_, hsq, hq, hl⟩ <;> omega

theorem c5_head_always_valid_witness :
    ((Machine.init Tape.default (Program.mk [])).square_i = 0 ∧
      0 ≤ (Machine.init Tape.default (Program.mk [])).square_i ∧
      (Machine.init Tape.default (Program.mk [])).square_i <
        (Tape.default.squares.length : Int)) ∧
    (0 ≤ exAfter.square_i ∧
      exAfter.square_i < (exAfter.tape.squares.length : Int)) :=
  ⟨c5_head_always_valid.1 Tape.default (Program.mk []) (by decide),
   c5_head_always_valid.2 exM exMove exAfter (by decide) (by decide)⟩

/-- C6: stepping a halted machine (state index 0) signals the normal
iteration exhaustion (`StopIteration`, here `StepResult.stop`), not an
error, and the machine it leaves behind is the unchanged input — same
tape, head position and state index. -/
theorem c6_halted_step_is_stop (m : Machine) (h : m.state_i = 0) :
    m.next = .stop m := by
  unfold Machine.next
  rw [if_pos h]

theorem c6_halted_step_is_stop_witness :
    exAfter.state_i = 0 ∧ exAfter.next = .stop exAfter :=
  ⟨rfl, c6_halted_step_is_stop exAfter rfl⟩

/-- C7: a run that halts (a successful `runFuel`) emits exactly one
`Move` per step taken until the state index first becomes 0 — the move
list has length `stepsToHalt` — the final machine is halted, and the
last emitted move's `to_state_i` is 0. -/
theorem c7_halting_run_trace :
    ∀ (fuel : Nat) (m : Machine) (ms : List Move) (mf : Machine),
      Machine.runFuel fuel m = some (ms, mf) → m.state_i ≠ 0 →
      Machine.stepsToHalt fuel m = some ms.length ∧ mf.state_i = 0 ∧
      ∃ mv, ms.getLast? = some mv ∧ mv.to_state_i = 0 := by
  intro fuel
  induction fuel with
  | zero =>
    intro m ms mf h h0
    unfold Machine.runFuel at h
    rw [if_neg h0] at h
    exact Option.noConfusion h
  | succ f ih =>
    intro m ms mf h h0
    unfold Machine.runFuel at h
    split at h
    · next ms'' hn =>
      exact absurd (next_eq_stop hn).1 h0
    · exact Option.noConfusion h
    next mv m' hn =>
      split at h
      · exact Option.noConfusion h
      next ms' mf' hr =>
        obtain ⟨rfl, rfl⟩ : mv :: ms' = ms ∧ mf' = mf :=
          Prod.mk.inj (Option.some.inj h)
        have hto : mv.to_state_i = m'.state_i := by
          obtain ⟨conf, _, _, _, _, _, _, _, hts, _, _⟩ := next_move_spec hn
          exact hts
        have hsteps : Machine.stepsToHalt (f + 1) m =
            (Machine.stepsToHalt f m').map (· + 1) := by
          have he : Machine.stepsToHalt (f + 1) m =
              match m.next with
              | .stop _ => some 0
              | .error => none
              | .move _ m'' => (Machine.stepsToHalt f m'').map (· + 1) := rfl
          rw [he, hn]
        by_cases h0' : m'.state_i = 0
        · have hhalt : Machine.runFuel f m' = some ([], m') := runFuel_halted h0'
          rw [hr] at hhalt
          obtain ⟨rfl, rfl⟩ : ms' = [] ∧ mf' = m' :=
            Prod.mk.inj (Option.some.inj hhalt)
          refine ⟨?_, h0', mv, by simp, by rw [hto]; exact h0'⟩
          rw [hsteps, stepsToHalt_halted h0']
          rfl
        · obtain ⟨ih1, ih2, mvl, ih3, ih4⟩ := ih m' ms' mf' hr h0'
          refine ⟨?_, ih2, mvl, getLast?_cons_of_getLast? ih3, ih4⟩
          rw [hsteps, ih1]
          rfl

theorem c7_halting_run_trace_witness :
    Machine.runFuel 1 exM = some ([exMove], exAfter) ∧
    Machine.stepsToHalt 1 exM = some [exMove].length ∧
    exAfter.state_i = 0 ∧
    ∃ mv, [exMove].getLast? = some mv ∧ mv.to_state_i = 0 :=
  ⟨by decide, c7_halting_run_trace 1 exM [exMove] exAfter (by decide) (by decide)⟩

/-- C8: the tape length never decreases across a step; it stays equal or
grows by exactly 1, and it grows by 1 exactly on an edge-extension step
(a left move at position 0 or a right move at the last index). -/
theorem c8_tape_length_monotone :
    ∀ (m : Machine) (mv : Move) (m' : Machine) (conf : Behavior),
      m.next = .move mv m' → m.currentBehavior = some conf →
      m.tape.squares.length ≤ m'.tape.squares.length ∧
      (m'.tape.squares.length = m.tape.squares.length ∨
        m'.tape.squares.length = m.tape.squares.length + 1) ∧
      (m'.tape.squares.length = m.tape.squares.length + 1 ↔
        ((conf.goes_right = false ∧ m.square_i = 0) ∨
         (conf.goes_right = true ∧
           m.square_i = (m.tape.squares.length : Int) - 1))) := by
  intro m mv m' conf hn hcb
  obtain ⟨conf', hcb', _, _, _, _, _, _, _, _, hcase⟩ := next_move_spec hn
  obtain rfl : conf = conf' := Option.some.inj (hcb.symm.trans hcb')
  rcases hcase with ⟨hr, hsq, _, hl, _⟩ | ⟨hr, hsq, _, hl⟩ | ⟨hr, hsq, _, hl⟩ |
    ⟨hr, hsq, _, hl⟩
  · refine ⟨by omega, Or.inr hl, ?_⟩
    rw [hl]
    exact ⟨fun _ => Or.inl ⟨hr, hsq⟩, fun _ => rfl⟩
  · refine ⟨by omega, Or.inl hl, ?_⟩
    rw [hl]
    constructor
    · intro hq
      exact absurd hq (by omega)
    · rintro (⟨_, hq⟩ | ⟨hq, _⟩)
      · exact absurd hq hsq
      · exact absurd hq (by simp [hr])
  · refine ⟨by omega, Or.inr hl, ?_⟩
    rw [hl]
    exact ⟨fun _ => Or.inr ⟨hr, hsq⟩, fun _ => rfl⟩
  · refine ⟨by omega, Or.inl hl, ?_⟩
    rw [hl]
    constructor
    · intro hq
      exact absurd hq (by omega)
    · rintro (⟨hq, _⟩ | ⟨_, hq⟩)
      · exact absurd hq (by simp [hr])
      · exact absurd hq hsq

theorem c8_tape_length_monotone_witness :
    exM.tape.squares.length ≤ exAfter.tape.squares.length ∧
    (exAfter.tape.squares.length = exM.tape.squares.length ∨
      exAfter.tape.squares.length = exM.tape.squares.length + 1) ∧
    (exAfter.tape.squares.length = exM.tape.squares.length + 1 ↔
      (((Behavior.mk false true 0).goes_right = false ∧ exM.square_i = 0) ∨
       ((Behavior.mk false true 0).goes_right = true ∧
         exM.square_i = (exM.tape.squares.length : Int) - 1))) :=
  c8_tape_length_monotone exM exMove exAfter (Behavior.mk false true 0)
    (by decide) (by decide)

/-- C9: the `rewind` operation always resets the head position to 0 and the state
index to 1 and clears the pending configuration, and leaves the tape
(its cells and length) and the program untouched. -/
theorem c9_rewind_resets_position_only (m : Machine) :
    m.rewind.square_i = 0 ∧ m.rewind.state_i = 1 ∧
    m.rewind.configuration = none ∧
    m.rewind.tape = m.tape ∧ m.rewind.program = m.program :=
  ⟨rfl, rfl, rfl, rfl, rfl⟩

/-- C10: for every emitted move the head displacement
`to_square_i - from_square_i` is in {-1, 0, 1}; it is 0 exactly on a
left move taken at position 0 (the left-edge extension, where the tape
shifts under the unchanged head index), and every right move, edge
extension included, displaces by +1. -/
theorem c10_square_delta :
    ∀ (m : Machine) (mv : Move) (m' : Machine) (conf : Behavior),
      m.next = .move mv m' → m.currentBehavior = some conf →
      (mv.to_square_i - mv.from_square_i = -1 ∨
        mv.to_square_i - mv.from_square_i = 0 ∨
        mv.to_square_i - mv.from_square_i = 1) ∧
      (mv.to_square_i - mv.from_square_i = 0 ↔
        conf.goes_right = false ∧ m.square_i = 0) ∧
      (conf.goes_right = true → mv.to_square_i - mv.from_square_i = 1) := by
  intro m mv m' conf hn hcb
  obtain ⟨conf', hcb', _, _, _, hfrom, _, hto, _, _, hcase⟩ := next_move_spec hn
  obtain rfl : conf = conf' := Option.some.inj (hcb.symm.trans hcb')
  rcases hcase with ⟨hr, hsq, hq, _, _⟩ | ⟨hr, hsq, hq, _⟩ | ⟨hr, hsq, hq, _⟩ |
    ⟨hr, hsq, hq, _⟩
  · exact ⟨Or.inr (Or.inl (by omega)), ⟨fun _ => ⟨hr, hsq⟩, fun _ => by omega⟩,
      fun hrt => absurd hrt (by simp [hr])⟩
  · exact ⟨Or.inl (by omega), ⟨fun hq0 => absurd hq0 (by omega),
      fun ⟨_, hq1⟩ => absurd hq1 hsq⟩, fun hrt => absurd hrt (by simp [hr])⟩
  · exact ⟨Or.inr (Or.inr (by omega)), ⟨fun hq0 => absurd hq0 (by omega),
      fun ⟨hq1, _⟩ => absurd hq1 (by simp [hr])⟩, fun _ => by omega⟩
  · exact ⟨Or.inr (Or.inr (by omega)), ⟨fun hq0 => absurd hq0 (by omega),
      fun ⟨hq1, _⟩ => absurd hq1 (by simp [hr])⟩, fun _ => by omega⟩

theorem c10_square_delta_witness :
    (exMove.to_square_i - exMove.from_square_i = -1 ∨
      exMove.to_square_i - exMove.from_square_i = 0 ∨
      exMove.to_square_i - exMove.from_square_i = 1) ∧
    (exMove.to_square_i - exMove.from_square_i = 0 ↔
      (Behavior.mk false true 0).goes_right = false ∧ exM.square_i = 0) ∧
    ((Behavior.mk false true 0).goes_right = true →
      exMove.to_square_i - exMove.from_square_i = 1) :=
  c10_square_delta exM exMove exAfter (Behavior.mk false true 0)
    (by decide) (by decide)

end Turmac
